import Mathlib

/-!
Verification of the currency algebra and normalization engine of the
crypto-apis repository: the key normalizer (`src/utils.py`), the price
graph (`Ticker`, `src/exchanges/utils.py`), the amount vector (`Balance`,
`src/utils.py`) and the order inversion (`src/exchanges/spec.py`).

Python dicts are modelled as insertion-ordered association lists with
string keys; numeric values are modelled as rationals; raised exceptions
are modelled with `Except`, the error payload carrying the information the
exception message carries (for `DuplicateKeyError` the canonical key).
-/

namespace CryptoApis

/-- A Python dict with string keys: an insertion-ordered association list. -/
abbrev Dict (α : Type) : Type := List (String × α)

/-- Python `d.get(key)` / `d[key]`: first matching entry, if any. -/
def dget {α : Type} : Dict α → String → Option α
  | [], _ => none
  | (k, v) :: rest, key => if k = key then some v else dget rest key

/-- Python `key in d`. -/
def hasKey {α : Type} (d : Dict α) (key : String) : Bool :=
  (dget d key).isSome

/-- Python `d[key] = v`: replaces the value at an existing key, keeping its
position, otherwise appends the new key at the end (insertion order). -/
def dset {α : Type} : Dict α → String → α → Dict α
  | [], key, v => [(key, v)]
  | (k, w) :: rest, key, v =>
      if k = key then (k, v) :: rest else (k, w) :: dset rest key v

/-- The keys of a dict, in order. -/
def dkeys {α : Type} (d : Dict α) : List String :=
  d.map Prod.fst

/-- `ALIASES` from `src/utils.py`: synonym groups, each mapped to exactly one
canonical currency code. -/
def ALIASES : List (List String × String) := [
  (["BCC", "BCH", "Bitcoin Cash (BCH)"], "BCH"),
  (["DASH", "DSH", "Dash (DASH)"], "DASH"),
  (["Bitcoin (BTC)", "BTC"], "BTC"),
  (["Ethereum (ETH)", "ETH"], "ETH"),
  (["Zcash (ZEC)", "ZEC"], "ZEC"),
  (["Monero (XMR)", "XMR"], "XMR"),
  (["Litecoin (LTC)", "LTC"], "LTC"),
  (["Ether Classic (ETC)", "ETC"], "ETC"),
  (["Namecoin (NMC)", "NMC"], "NMC"),
  (["Peercoin (PPC)", "PPC"], "PPC"),
  (["Ripple (XRP)", "XRP"], "XRP"),
  (["Dogecoin (DOGE)", "DOGE"], "DOGE"),
  (["RUR", "RUB"], "RUB"),
  (["Tether (USDT)", "USDT"], "USDT"),
  (["NEM (XEM)", "XEM"], "XEM"),
  (["Augur (REP)", "REP"], "REP")]

/-- `_ALIASES_FLATTENED` from `src/utils.py`: every raw spelling mapped to the
canonical code of its group. -/
def aliasesFlattened : Dict String :=
  ALIASES.flatMap (fun g => g.1.map (fun src => (src, g.2)))

/-- Python `str.upper()`: per-character ASCII upper-casing (`Char.toUpper`
matches Python on the ASCII range the program's currency keys use). -/
def pyUpper (s : String) : String :=
  ⟨s.data.map Char.toUpper⟩

/-- `normalized_key` from `src/utils.py`: alias lookup on the raw key, then on
its upper-cased form, falling back to the upper-cased key (the Python `or`
chain; alias targets are nonempty strings, hence truthy). -/
def normalized_key (k : String) : String :=
  match dget aliasesFlattened k with
  | some t => t
  | none =>
      match dget aliasesFlattened (pyUpper k) with
      | some t => t
      | none => pyUpper k

/-- The `agg is None` loop of `_normalize_keys_impl` (`src/utils.py`):
re-inserts every entry under its normalized key, raising `DuplicateKeyError`
(naming the canonical key) when the normalized key is already present. -/
def normalizeNoAggAux {α : Type} : Dict α → Dict α → Except String (Dict α)
  | result, [] => .ok result
  | result, (k, v) :: rest =>
      let key := normalized_key k
      if hasKey result key then .error key
      else normalizeNoAggAux (dset result key v) rest

/-- `_normalize_keys_impl(d, agg=None)` from `src/utils.py`. -/
def normalizeNoAgg {α : Type} (d : Dict α) : Except String (Dict α) :=
  normalizeNoAggAux [] d

/-- The `defaultdict(list)` grouping loop of `_normalize_keys_impl` with an
aggregator: appends each value to the list of its normalized key, creating the
key (in encounter order) when missing. -/
def groupByNormalizedAux {α : Type} : Dict (List α) → Dict α → Dict (List α)
  | result, [] => result
  | result, (k, v) :: rest =>
      let key := normalized_key k
      groupByNormalizedAux (dset result key (((dget result key).getD []) ++ [v])) rest

/-- `_normalize_keys_impl(d, agg=agg)` from `src/utils.py`: group values by
normalized key, then replace each value list by `agg(values)`. -/
def normalizeAgg {α β : Type} (d : Dict α) (agg : List α → β) : Dict β :=
  (groupByNormalizedAux [] d).map (fun e => (e.1, agg e.2))

/-- A Python value as seen by the recursive normalizer: a number or a dict. -/
inductive PyVal : Type
  | num (q : ℚ)
  | dict (entries : List (String × PyVal))

/-- The dict comprehension of the recursive branch of `normalize_keys`
(`src/utils.py`): every value is normalized by the inner call
`normalize_keys(entry, agg=agg)`, which is non-recursive (the `recursive`
flag is not passed on) and requires the value to be a dict (`entry.items()`
on a number raises `AttributeError`). -/
def normalizeEntries : Dict PyVal → Except String (Dict PyVal)
  | [] => .ok []
  | (_, .num _) :: _ => .error "AttributeError"
  | (k, .dict inner) :: rest => do
      let innerN ← normalizeNoAgg inner
      let restN ← normalizeEntries rest
      .ok ((k, .dict innerN) :: restN)

/-- `normalize_keys(d, agg=None, recursive=True)` from `src/utils.py`: a
non-dict is returned unchanged; a dict is rebuilt with each value normalized
by the non-recursive inner call, then its outer keys are normalized by
`_normalize_keys_impl`. -/
def normalize_keys_rec : PyVal → Except String PyVal
  | .num q => .ok (.num q)
  | .dict entries => do
      let entriesN ← normalizeEntries entries
      let outer ← normalizeNoAgg entriesN
      .ok (.dict outer)

/-- The value-normalization pass of `normalize_keys(d, agg=None,
recursive=True)` at the dict-of-dicts instance used by `Ticker`: each row is
normalized by the non-recursive inner call. -/
def normalizeRows : Dict (Dict ℚ) → Except String (Dict (Dict ℚ))
  | [] => .ok []
  | (k, row) :: rest => do
      let rowN ← normalizeNoAgg row
      let restN ← normalizeRows rest
      .ok ((k, rowN) :: restN)

/-- `normalize_keys(self, inplace=True, recursive=True)` as run by
`Ticker._normalize_keys` on a nested price dict (`inplace` only determines
which object ends up holding the result, not the resulting mapping). -/
def normalizeNested (d : Dict (Dict ℚ)) : Except String (Dict (Dict ℚ)) := do
  let rows ← normalizeRows d
  normalizeNoAgg rows

/-- `Ticker._add_self_prices` (`src/exchanges/utils.py`):
`self[key][key] = 1.0` for every source key. -/
def addSelfPrices (t : Dict (Dict ℚ)) : Dict (Dict ℚ) :=
  t.map (fun e => (e.1, dset e.2 e.1 1))

/-- `Ticker.__init__`: store the raw nested mapping, normalize all keys
recursively, then add the reflexive self-price `1.0` for every source. -/
def mkTicker (raw : Dict (Dict ℚ)) : Except String (Dict (Dict ℚ)) := do
  let n ← normalizeNested raw
  .ok (addSelfPrices n)

/-- `Ticker.prices`: `Balance(self[target_currency])`; `self[...]` on a
missing currency key raises `KeyError`, otherwise the row is copied into a
`Balance`. -/
def prices (t : Dict (Dict ℚ)) (target : String) : Except String (Dict ℚ) :=
  match dget t target with
  | some row => .ok row
  | none => .error "KeyError"

/-- The price inverter `lambda price: price and 1 / price` of
`Ticker.inverted`: `0` is falsy, so a zero price stays `0`. -/
def pinv (p : ℚ) : ℚ := if p = 0 then p else 1 / p

/-- `result[to][from_] = v` on the `defaultdict(dict)` of `inverted`
(`src/utils.py`): a missing `to` row is created empty, then assigned. -/
def dset2 {α : Type} (acc : Dict (Dict α)) (to_ from_ : String) (v : α) : Dict (Dict α) :=
  match dget acc to_ with
  | some row => dset acc to_ (dset row from_ v)
  | none => acc ++ [(to_, [(from_, v)])]

/-- The inner loop of `inverted` (`src/utils.py`) over one source row. -/
def invertedRow {α β : Type} (f : α → β) (from_ : String) :
    Dict (Dict β) → Dict α → Dict (Dict β)
  | acc, [] => acc
  | acc, (to_, v) :: rest => invertedRow f from_ (dset2 acc to_ from_ (f v)) rest

/-- The outer loop of `inverted` (`src/utils.py`) over the source rows. -/
def invertedAux {α β : Type} (f : α → β) :
    Dict (Dict β) → Dict (Dict α) → Dict (Dict β)
  | acc, [] => acc
  | acc, (from_, entry) :: rest => invertedAux f (invertedRow f from_ acc entry) rest

/-- `inverted(d, inverter)` from `src/utils.py`: transposes a two-level dict
`[from_][to] -> [to][from_]`, applying `inverter` to every value. -/
def inverted {α β : Type} (d : Dict (Dict α)) (f : α → β) : Dict (Dict β) :=
  invertedAux f [] d

/-- `Ticker.inverted`: `Ticker(inverted(self, lambda price: price and
1 / price))` — the transposed dict goes back through the `Ticker`
constructor. -/
def tickerInverted (t : Dict (Dict ℚ)) : Except String (Dict (Dict ℚ)) :=
  mkTicker (inverted t pinv)

/-- An order record `{amount, price, order_id}` as built by the adapters and
consumed by `ExchangeAPI.open_buy_orders`. -/
structure Order : Type where
  amount : ℚ
  price : ℚ
  order_id : String
  deriving DecidableEq

/-- The per-order transformation inside `ExchangeAPI.open_buy_orders`
(`src/exchanges/spec.py`): `dict(order_id=order['order_id'],
amount=order['amount'] * order['price'],
price=order['price'] and 1 / order['price'])`. -/
def invOrder (o : Order) : Order :=
  { amount := o.amount * o.price,
    price := if o.price = 0 then o.price else 1 / o.price,
    order_id := o.order_id }

/-- The `inverted(open_orders, lambda orders: ...)` call of
`ExchangeAPI.open_buy_orders`: transpose the two-level order structure,
mapping every order list through the per-order transformation. -/
def invertOrders (oo : Dict (Dict (List Order))) : Dict (Dict (List Order)) :=
  inverted oo (fun orders => orders.map invOrder)

/-- `ExchangeAPI.open_buy_orders(to_currency, open_orders)` with
`open_orders` supplied: `inverted_orders.get(to_currency, {})`. -/
def open_buy_orders (to_currency : String) (oo : Dict (Dict (List Order))) :
    Dict (List Order) :=
  (dget (invertOrders oo) to_currency).getD []

/-- `Counter` item access: a missing key reads as `0` (`Counter.__missing__`);
also `other.get(key, 0)`. -/
def balGet (b : Dict ℚ) (k : String) : ℚ := (dget b k).getD 0

/-- The first loop of `Balance.__mul__` (`src/utils.py`):
`result[key] = value * other.get(key, 0)` for every key of `self`. -/
def balMulLoop1 (v : Dict ℚ) : Dict ℚ → Dict ℚ → Dict ℚ
  | result, [] => result
  | result, (k, a) :: rest => balMulLoop1 v (dset result k (a * balGet v k)) rest

/-- The second loop of `Balance.__mul__`: `result[key] = 0` for every key of
`other` not already present in `result`. -/
def balMulLoop2 : Dict ℚ → Dict ℚ → Dict ℚ
  | result, [] => result
  | result, (k, _) :: rest =>
      balMulLoop2 (if hasKey result k then result else dset result k 0) rest

/-- `Balance.__mul__` with a `Counter` operand (`src/utils.py`). -/
def balMul (u v : Dict ℚ) : Dict ℚ :=
  balMulLoop2 (balMulLoop1 v [] u) v

/-- `MarketAPI.buy_cost(balance, target_currency, ticker)` with a ticker
supplied (`src/exchanges/spec.py`): `balance * ticker.prices(target)`. -/
def buy_cost (balance : Dict ℚ) (target : String) (t : Dict (Dict ℚ)) :
    Except String (Dict ℚ) := do
  let row ← prices t target
  .ok (balMul balance row)

/-- The first loop of `Counter.__add__` (invoked by `Balance.__add__`,
`src/utils.py`): keeps a `self` entry when its sum with the other side's
count is strictly positive. -/
def counterAddLoop1 (v : Dict ℚ) : Dict ℚ → Dict ℚ → Dict ℚ
  | result, [] => result
  | result, (k, a) :: rest =>
      counterAddLoop1 v
        (if 0 < a + balGet v k then dset result k (a + balGet v k) else result) rest

/-- The second loop of `Counter.__add__`: appends `other`-only entries with
strictly positive counts. -/
def counterAddLoop2 (u : Dict ℚ) : Dict ℚ → Dict ℚ → Dict ℚ
  | result, [] => result
  | result, (k, c) :: rest =>
      counterAddLoop2 u
        (if ¬ hasKey u k ∧ 0 < c then dset result k c else result) rest

/-- `Balance.__add__` (`src/utils.py`): `Balance(super().__add__(other))`,
i.e. `Counter.__add__`, which keeps only strictly positive sums. -/
def balAdd (u v : Dict ℚ) : Dict ℚ :=
  counterAddLoop2 u (counterAddLoop1 v [] u) v

/-- Two-level lookup `d[a][b]`, as an option. -/
def dget2 {α : Type} (d : Dict (Dict α)) (a b : String) : Option α :=
  (dget d a).bind (fun row => dget row b)

/-- No duplicate keys at either level of a two-level dict (true of every
Python dict by construction). -/
def DDNodup {α : Type} (d : Dict (Dict α)) : Prop :=
  (dkeys d).Nodup ∧ ∀ e ∈ d, (dkeys e.2).Nodup

/-- All keys at both levels are canonical: fixed points of `normalized_key`. -/
def DDCanon {α : Type} (d : Dict (Dict α)) : Prop :=
  (∀ k ∈ dkeys d, normalized_key k = k) ∧
    ∀ e ∈ d, ∀ k ∈ dkeys e.2, normalized_key k = k

section DictLemmas

variable {α β : Type}

theorem dkeys_nil : dkeys ([] : Dict α) = [] := rfl

theorem dkeys_cons {k : String} {v : α} {d : Dict α} :
    dkeys ((k, v) :: d) = k :: dkeys d := rfl

theorem dget_eq_none {d : Dict α} {k : String} : dget d k = none ↔ k ∉ dkeys d := by
  induction d with
  | nil => simp [dget, dkeys_nil]
  | cons e rest ih =>
      obtain ⟨k0, v0⟩ := e
      by_cases h : k0 = k
      · subst h
        simp [dget, dkeys_cons]
      · have hmem : (k ∉ k0 :: dkeys rest) ↔ (k ∉ dkeys rest) := by
          constructor
          · intro hn h2
            exact hn (List.mem_cons_of_mem _ h2)
          · intro hn h2
            rcases List.mem_cons.mp h2 with h3 | h3
            · exact h h3.symm
            · exact hn h3
        simp only [dget, dkeys_cons, h, if_false, ih]
        exact hmem.symm

theorem mem_dkeys_of_dget {d : Dict α} {k : String} {v : α} (h : dget d k = some v) :
    k ∈ dkeys d := by
  by_contra hmem
  rw [← dget_eq_none] at hmem
  rw [h] at hmem
  exact Option.noConfusion hmem

theorem dget_isSome_of_mem {d : Dict α} {k : String} (h : k ∈ dkeys d) :
    ∃ v, dget d k = some v := by
  cases hd : dget d k with
  | some v => exact ⟨v, rfl⟩
  | none => exact absurd (dget_eq_none.mp hd) (fun h2 => h2 h)

theorem hasKey_iff_mem {d : Dict α} {k : String} : hasKey d k = true ↔ k ∈ dkeys d := by
  unfold hasKey
  cases hd : dget d k with
  | some v => simp [mem_dkeys_of_dget hd]
  | none => simp [dget_eq_none.mp hd]

theorem hasKey_false_iff {d : Dict α} {k : String} : hasKey d k = false ↔ k ∉ dkeys d := by
  rw [← Bool.not_eq_true, not_iff_not]
  exact hasKey_iff_mem

theorem dget_dset_self {d : Dict α} {k : String} {v : α} : dget (dset d k v) k = some v := by
  induction d with
  | nil => simp [dset, dget]
  | cons e rest ih =>
      obtain ⟨k0, v0⟩ := e
      by_cases h : k0 = k <;> simp [dset, dget, h, ih]

theorem dget_dset_ne {d : Dict α} {k k2 : String} {v : α} (h : k2 ≠ k) :
    dget (dset d k v) k2 = dget d k2 := by
  have hne : k ≠ k2 := fun h2 => h (h2.symm)
  induction d with
  | nil => simp [dset, dget, hne]
  | cons e rest ih =>
      obtain ⟨k0, v0⟩ := e
      by_cases h0 : k0 = k
      · subst h0
        simp [dset, dget, hne]
      · by_cases h2 : k0 = k2 <;> simp [dset, dget, h0, h2, h, ih]

theorem dset_eq_append {d : Dict α} {k : String} {v : α} (h : k ∉ dkeys d) :
    dset d k v = d ++ [(k, v)] := by
  induction d with
  | nil => simp [dset]
  | cons e rest ih =>
      obtain ⟨k0, v0⟩ := e
      rw [dkeys_cons] at h
      simp only [List.mem_cons, not_or] at h
      have h1 : k0 ≠ k := fun h2 => h.1 (h2.symm)
      simp [dset, h1, ih h.2]

theorem dkeys_append {d1 d2 : Dict α} : dkeys (d1 ++ d2) = dkeys d1 ++ dkeys d2 := by
  simp [dkeys]

theorem dget_append {d1 d2 : Dict α} {k : String} :
    dget (d1 ++ d2) k = ((dget d1 k).orElse (fun _ => dget d2 k)) := by
  induction d1 with
  | nil => simp [dget]
  | cons e rest ih =>
      obtain ⟨k0, v0⟩ := e
      by_cases h : k0 = k <;> simp [dget, h, ih]

theorem dget_map_snd {d : Dict α} {g : String → α → β} {k : String} :
    dget (d.map (fun e => (e.1, g e.1 e.2))) k = (dget d k).map (g k) := by
  induction d with
  | nil => simp [dget]
  | cons e rest ih =>
      obtain ⟨k0, v0⟩ := e
      by_cases h : k0 = k
      · subst h
        simp [dget, ih]
      · simp [dget, h, ih]

theorem dkeys_map_snd {d : Dict α} {g : String → α → β} :
    dkeys (d.map (fun e => (e.1, g e.1 e.2))) = dkeys d := by
  simp [dkeys, Function.comp]

end DictLemmas

theorem char_toNat_ofNat_valid {n : Nat} (h : n.isValidChar) : (Char.ofNat n).toNat = n := by
  simp only [Char.ofNat, h, dif_pos, Char.ofNatAux, Char.toNat]
  rfl

theorem char_toUpper_idem (c : Char) : c.toUpper.toUpper = c.toUpper := by
  unfold Char.toUpper
  by_cases h : c.toNat ≥ 97 ∧ c.toNat ≤ 122
  · have hv : (c.toNat - 32).isValidChar := by
      constructor
      omega
    rw [if_pos h, char_toNat_ofNat_valid hv, if_neg]
    omega
  · rw [if_neg h, if_neg h]

theorem pyUpper_idem (s : String) : pyUpper (pyUpper s) = pyUpper s := by
  show String.mk ((s.data.map Char.toUpper).map Char.toUpper)
      = String.mk (s.data.map Char.toUpper)
  rw [List.map_map]
  exact congrArg String.mk (List.map_congr_left (fun c _ => char_toUpper_idem c))

/-- Every canonical code in the flattened alias table is itself mapped to
itself by the table (each target is listed among its own group's spellings,
and no raw spelling occurs in two groups). -/
theorem aliasesFlattened_fixed :
    ∀ p ∈ aliasesFlattened, dget aliasesFlattened p.2 = some p.2 := by
  decide

theorem dget_mem {α : Type} {d : Dict α} {k : String} {v : α}
    (h : dget d k = some v) : (k, v) ∈ d := by
  induction d with
  | nil => simp [dget] at h
  | cons e rest ih =>
      obtain ⟨k0, v0⟩ := e
      by_cases h0 : k0 = k
      · subst h0
        simp [dget] at h
        simp [h]
      · simp [dget, h0] at h
        simp [ih h]

theorem normalized_key_fixed_of_alias {k t : String}
    (h : dget aliasesFlattened k = some t) : normalized_key t = t := by
  have hf := aliasesFlattened_fixed (k, t) (dget_mem h)
  unfold normalized_key
  rw [hf]

/-- The per-key canonicalization is a fixed point on its own outputs. -/
theorem normalized_key_idem (k : String) :
    normalized_key (normalized_key k) = normalized_key k := by
  cases h1 : dget aliasesFlattened k with
  | some t =>
      have hk : normalized_key k = t := by
        unfold normalized_key
        rw [h1]
      rw [hk]
      exact normalized_key_fixed_of_alias h1
  | none =>
      cases h2 : dget aliasesFlattened (pyUpper k) with
      | some t =>
          have hk : normalized_key k = t := by
            unfold normalized_key
            rw [h1, h2]
          rw [hk]
          exact normalized_key_fixed_of_alias h2
      | none =>
          have hk : normalized_key k = pyUpper k := by
            unfold normalized_key
            rw [h1, h2]
          rw [hk]
          unfold normalized_key
          rw [pyUpper_idem, h2]

theorem hasKey_append {α : Type} {d1 d2 : Dict α} {k : String} :
    hasKey (d1 ++ d2) k = (hasKey d1 k || hasKey d2 k) := by
  unfold hasKey
  rw [dget_append]
  cases dget d1 k <;> simp [Option.orElse]

theorem normalizeNoAggAux_ok_eq {α : Type} {acc r l : Dict α}
    (h : normalizeNoAggAux acc l = .ok r) :
    r = acc ++ l.map (fun e => (normalized_key e.1, e.2)) := by
  induction l generalizing acc with
  | nil =>
      simp [normalizeNoAggAux] at h
      simp [h]
  | cons e rest ih =>
      obtain ⟨k, v⟩ := e
      by_cases hk : hasKey acc (normalized_key k) = true
      · simp [normalizeNoAggAux, hk] at h
      · simp only [normalizeNoAggAux, hk, Bool.false_eq_true, if_false] at h
        have hmem : normalized_key k ∉ dkeys acc :=
          hasKey_false_iff.mp (Bool.not_eq_true _ |>.mp hk)
        rw [ih h, dset_eq_append hmem]
        simp

theorem normalizeNoAggAux_ok_nodup {α : Type} {acc r l : Dict α}
    (hacc : (dkeys acc).Nodup) (h : normalizeNoAggAux acc l = .ok r) :
    (dkeys r).Nodup := by
  induction l generalizing acc with
  | nil =>
      simp [normalizeNoAggAux] at h
      rw [← h]
      exact hacc
  | cons e rest ih =>
      obtain ⟨k, v⟩ := e
      by_cases hk : hasKey acc (normalized_key k) = true
      · simp [normalizeNoAggAux, hk] at h
      · simp only [normalizeNoAggAux, hk, Bool.false_eq_true, if_false] at h
        have hmem : normalized_key k ∉ dkeys acc :=
          hasKey_false_iff.mp (Bool.not_eq_true _ |>.mp hk)
        refine ih ?_ h
        rw [dset_eq_append hmem, dkeys_append]
        have hsing : dkeys [((normalized_key k), v)] = [normalized_key k] := rfl
        rw [hsing, List.nodup_append]
        refine ⟨hacc, List.nodup_singleton _, fun a ha hb => ?_⟩
        rw [List.mem_singleton] at hb
        exact hmem (hb ▸ ha)

theorem normalizeNoAgg_ok_eq {α : Type} {r l : Dict α} (h : normalizeNoAgg l = .ok r) :
    r = l.map (fun e => (normalized_key e.1, e.2)) := by
  simpa using normalizeNoAggAux_ok_eq h

theorem normalizeNoAgg_ok_nodup {α : Type} {r l : Dict α} (h : normalizeNoAgg l = .ok r) :
    (dkeys r).Nodup :=
  normalizeNoAggAux_ok_nodup (by simp [dkeys]) h

theorem normalizeNoAgg_ok_canon {α : Type} {r l : Dict α} (h : normalizeNoAgg l = .ok r) :
    ∀ k ∈ dkeys r, normalized_key k = k := by
  intro k hk
  rw [normalizeNoAgg_ok_eq h] at hk
  simp only [dkeys, List.map_map, List.mem_map, Function.comp] at hk
  obtain ⟨e, _, he⟩ := hk
  rw [← he]
  exact normalized_key_idem e.1

theorem normalizeNoAggAux_id {α : Type} {l : Dict α}
    (hcan : ∀ k ∈ dkeys l, normalized_key k = k) (hnd : (dkeys l).Nodup) :
    ∀ acc : Dict α, (∀ k ∈ dkeys l, hasKey acc k = false) →
    normalizeNoAggAux acc l = .ok (acc ++ l) := by
  induction l with
  | nil => simp [normalizeNoAggAux]
  | cons e rest ih =>
      intro acc hdisj
      obtain ⟨k, v⟩ := e
      rw [dkeys_cons] at hcan hnd hdisj
      have hk : normalized_key k = k := hcan k (List.mem_cons_self _ _)
      have hfalse : hasKey acc k = false := hdisj k (List.mem_cons_self _ _)
      have hmem : k ∉ dkeys acc := hasKey_false_iff.mp hfalse
      have hknotrest : k ∉ dkeys rest := (List.nodup_cons.mp hnd).1
      simp only [normalizeNoAggAux, hk, hfalse, Bool.false_eq_true, if_false]
      rw [dset_eq_append hmem]
      rw [ih (fun k2 h2 => hcan k2 (List.mem_cons_of_mem _ h2))
        (List.nodup_cons.mp hnd).2 (acc ++ [(k, v)]) ?_]
      · simp
      · intro k2 h2
        rw [hasKey_append]
        have h1 : hasKey acc k2 = false := hdisj k2 (List.mem_cons_of_mem _ h2)
        have hne : k2 ≠ k := fun hkk => hknotrest (hkk ▸ h2)
        have hne2 : ¬ (k = k2) := fun hkk => hne (hkk.symm)
        have h2f : hasKey [(k, v)] k2 = false := by
          simp [hasKey, dget, hne2]
        rw [h1, h2f]
        rfl

theorem normalizeNoAgg_id {α : Type} {l : Dict α}
    (hcan : ∀ k ∈ dkeys l, normalized_key k = k) (hnd : (dkeys l).Nodup) :
    normalizeNoAgg l = .ok l := by
  have := normalizeNoAggAux_id hcan hnd [] (fun k _ => by simp [hasKey, dget])
  simpa [normalizeNoAgg] using this

theorem normalizeNoAggAux_error {α : Type} {l : Dict α} {c : String}
    (hnd : (dkeys l).Nodup) :
    ∀ acc : Dict α, normalizeNoAggAux acc l = .error c →
    ∃ k1 ∈ dkeys l, normalized_key k1 = c ∧
      (c ∈ dkeys acc ∨ ∃ k2 ∈ dkeys l, k2 ≠ k1 ∧ normalized_key k2 = c) := by
  induction l with
  | nil =>
      intro acc h
      simp [normalizeNoAggAux] at h
  | cons e rest ih =>
      intro acc h
      obtain ⟨k, v⟩ := e
      rw [dkeys_cons] at hnd
      have hknotrest : k ∉ dkeys rest := (List.nodup_cons.mp hnd).1
      by_cases hk : hasKey acc (normalized_key k) = true
      · have hc : normalized_key k = c := by
          simp [normalizeNoAggAux, hk] at h
          exact h
        refine ⟨k, List.mem_cons_self _ _, hc, Or.inl ?_⟩
        rw [← hc]
        exact hasKey_iff_mem.mp hk
      · simp only [normalizeNoAggAux, hk, Bool.false_eq_true, if_false] at h
        have hmem : normalized_key k ∉ dkeys acc :=
          hasKey_false_iff.mp (Bool.not_eq_true _ |>.mp hk)
        obtain ⟨k1, hk1, hc1, hor⟩ := ih (List.nodup_cons.mp hnd).2 _ h
        rcases hor with hacc | ⟨k2, hk2, hne, hc2⟩
        · rw [dset_eq_append hmem, dkeys_append] at hacc
          rcases List.mem_append.mp hacc with h1 | h1
          · exact ⟨k1, List.mem_cons_of_mem _ hk1, hc1, Or.inl h1⟩
          · have hck : c = normalized_key k := by
              simpa [dkeys] using h1
            refine ⟨k1, List.mem_cons_of_mem _ hk1, hc1,
              Or.inr ⟨k, List.mem_cons_self _ _, ?_, hck.symm⟩⟩
            exact fun hkk => hknotrest (hkk ▸ hk1)
        · exact ⟨k1, List.mem_cons_of_mem _ hk1, hc1,
            Or.inr ⟨k2, List.mem_cons_of_mem _ hk2, hne, hc2⟩⟩

theorem hasKey_dset {α : Type} {d : Dict α} {k k2 : String} {v : α} :
    hasKey (dset d k v) k2 = true ↔ (hasKey d k2 = true ∨ k2 = k) := by
  by_cases h : k2 = k
  · subst h
    simp [hasKey, dget_dset_self]
  · rw [hasKey, dget_dset_ne h, ← hasKey]
    simp [h]

theorem groupByNormalizedAux_gval {α : Type} {d : Dict α} :
    ∀ (acc : Dict (List α)) (K : String),
    (dget (groupByNormalizedAux acc d) K).getD [] =
      (dget acc K).getD []
        ++ (d.filter (fun e => normalized_key e.1 == K)).map Prod.snd := by
  induction d with
  | nil => simp [groupByNormalizedAux]
  | cons e rest ih =>
      intro acc K
      obtain ⟨k, v⟩ := e
      by_cases hK : normalized_key k = K
      · simp only [groupByNormalizedAux, List.filter_cons, hK, beq_self_eq_true, if_true,
          List.map_cons, ih]
        rw [dget_dset_self]
        simp
      · have hbeq : (normalized_key k == K) = false := by
          simp [hK]
        simp only [groupByNormalizedAux, List.filter_cons, hbeq, Bool.false_eq_true,
          if_false, ih]
        rw [dget_dset_ne (fun h2 => hK (h2.symm))]

theorem groupByNormalizedAux_hasKey {α : Type} {d : Dict α} :
    ∀ (acc : Dict (List α)) (K : String),
    hasKey (groupByNormalizedAux acc d) K = true ↔
      (hasKey acc K = true ∨ K ∈ (dkeys d).map normalized_key) := by
  induction d with
  | nil => simp [groupByNormalizedAux, dkeys_nil]
  | cons e rest ih =>
      intro acc K
      obtain ⟨k, v⟩ := e
      rw [dkeys_cons]
      simp only [groupByNormalizedAux, ih, hasKey_dset, List.map_cons, List.mem_cons]
      constructor
      · rintro ((h | h) | h)
        · exact Or.inl h
        · exact Or.inr (Or.inl h)
        · exact Or.inr (Or.inr h)
      · rintro (h | h | h)
        · exact Or.inl (Or.inl h)
        · exact Or.inl (Or.inr h)
        · exact Or.inr h

/-- C1: if two distinct raw keys of a mapping canonicalize to the same key,
normalizing without an aggregator raises a `DuplicateKeyError` naming a
canonical key on which two distinct raw keys collide; and with
`aggregator = sum`, normalizing `{"btc": 1, "BTC": 2}` returns `{"BTC": 3}`
(the colliding values, collected in encounter order, reduced by `sum`). -/
theorem C1_duplicate_key_policy :
    (∀ (d : Dict ℚ), (dkeys d).Nodup →
      (∃ k1 ∈ dkeys d, ∃ k2 ∈ dkeys d, k1 ≠ k2 ∧ normalized_key k1 = normalized_key k2) →
      ∃ c, normalizeNoAgg d = .error c ∧
        ∃ k1 ∈ dkeys d, ∃ k2 ∈ dkeys d, k1 ≠ k2 ∧
          normalized_key k1 = c ∧ normalized_key k2 = c)
    ∧ normalizeAgg [("btc", (1 : ℚ)), ("BTC", 2)] (fun l => l.sum) = [("BTC", 3)] := by
  constructor
  · rintro d hnd ⟨k1, h1, k2, h2, hne, heq⟩
    cases hres : normalizeNoAgg d with
    | ok r =>
        exfalso
        have hrkeys : dkeys r = (dkeys d).map normalized_key := by
          rw [normalizeNoAgg_ok_eq hres]
          simp [dkeys, List.map_map, Function.comp]
        have hmapnodup : ((dkeys d).map normalized_key).Nodup := by
          rw [← hrkeys]
          exact normalizeNoAgg_ok_nodup hres
        exact hne (List.inj_on_of_nodup_map hmapnodup h1 h2 heq)
    | error c =>
        obtain ⟨kk1, hm1, hc1, hor⟩ := normalizeNoAggAux_error hnd [] hres
        rcases hor with habs | ⟨kk2, hm2, hnee, hc2⟩
        · simp [dkeys_nil] at habs
        · exact ⟨c, rfl, kk1, hm1, kk2, hm2, fun hkk => hnee (hkk.symm), hc1, hc2⟩
  · have h1 : normalized_key "btc" = "BTC" := by decide
    have h2 : normalized_key "BTC" = "BTC" := by decide
    simp [normalizeAgg, groupByNormalizedAux, dget, dset, h1, h2]
    norm_num

/-- Witness for C1 at the concrete colliding mapping `{"btc": 1, "BTC": 2}`. -/
theorem C1_duplicate_key_policy_witness :
    ∃ c, normalizeNoAgg [("btc", (1 : ℚ)), ("BTC", 2)] = .error c ∧
      ∃ k1 ∈ dkeys [("btc", (1 : ℚ)), ("BTC", 2)],
        ∃ k2 ∈ dkeys [("btc", (1 : ℚ)), ("BTC", 2)], k1 ≠ k2 ∧
          normalized_key k1 = c ∧ normalized_key k2 = c :=
  C1_duplicate_key_policy.1 [("btc", 1), ("BTC", 2)] (by decide)
    ⟨"btc", by decide, "BTC", by decide, by decide, by decide⟩

/-- C10: with an aggregator, the value stored for every canonical key is the
aggregator applied to the list of raw values that normalize to it (in
encounter order) — including keys with exactly one raw value, whose result is
`aggregator([v])`, not `v` itself (second conjunct: with an aggregator
returning the number of collected values, a singleton key `{"btc": 5}` maps
to `1`, not `5`). -/
theorem C10_aggregator_applied_to_singletons :
    (∀ (d : Dict ℚ) (agg : List ℚ → ℚ) (K : String),
      K ∈ (dkeys d).map normalized_key →
      dget (normalizeAgg d agg) K =
        some (agg ((d.filter (fun e => normalized_key e.1 == K)).map Prod.snd)))
    ∧ normalizeAgg [("btc", (5 : ℚ))] (fun vs => (vs.length : ℚ)) = [("BTC", 1)] := by
  constructor
  · intro d agg K hK
    have hhas : hasKey (groupByNormalizedAux [] d) K = true := by
      rw [groupByNormalizedAux_hasKey]
      exact Or.inr hK
    obtain ⟨vs, hvs⟩ := dget_isSome_of_mem (hasKey_iff_mem.mp hhas)
    have hval : vs = (d.filter (fun e => normalized_key e.1 == K)).map Prod.snd := by
      have := @groupByNormalizedAux_gval ℚ d [] K
      rw [hvs] at this
      simpa [dget] using this
    have hmap := @dget_map_snd (List ℚ) ℚ (groupByNormalizedAux [] d)
      (fun _ l => agg l) K
    show dget ((groupByNormalizedAux [] d).map (fun e => (e.1, agg e.2))) K = _
    rw [hmap, hvs, hval]
    rfl
  · have h1 : normalized_key "btc" = "BTC" := by decide
    simp [normalizeAgg, groupByNormalizedAux, dget, dset, h1]

/-- Witness for C10 at `{"btc": 1, "BTC": 2}` with `aggregator = sum`. -/
theorem C10_aggregator_applied_to_singletons_witness :
    dget (normalizeAgg [("btc", (1 : ℚ)), ("BTC", 2)] (fun l => l.sum)) "BTC" =
      some ((([("btc", (1 : ℚ)), ("BTC", 2)].filter
        (fun e => normalized_key e.1 == "BTC")).map Prod.snd).sum) :=
  C10_aggregator_applied_to_singletons.1 [("btc", 1), ("BTC", 2)]
    (fun l => l.sum) "BTC" (by decide)

theorem balMulLoop1_dget {v : Dict ℚ} :
    ∀ (u acc : Dict ℚ) (k : String), (dkeys u).Nodup →
    dget (balMulLoop1 v acc u) k =
      match dget u k with
      | some a => some (a * balGet v k)
      | none => dget acc k := by
  intro u
  induction u with
  | nil =>
      intro acc k _
      simp [balMulLoop1, dget]
  | cons e rest ih =>
      intro acc k hnd
      obtain ⟨k0, a⟩ := e
      rw [dkeys_cons] at hnd
      have hk0rest : k0 ∉ dkeys rest := (List.nodup_cons.mp hnd).1
      simp only [balMulLoop1]
      rw [ih _ _ (List.nodup_cons.mp hnd).2]
      by_cases h : k0 = k
      · subst h
        rw [dget_eq_none.mpr hk0rest]
        simp [dget, dget_dset_self]
      · have hne : k ≠ k0 := fun hh => h (hh.symm)
        simp only [dget, h, if_false]
        cases dget rest k with
        | some a2 => rfl
        | none => simp [dget_dset_ne hne]

theorem balMulLoop2_dget :
    ∀ (v acc : Dict ℚ) (k : String),
    dget (balMulLoop2 acc v) k =
      match dget acc k with
      | some x => some x
      | none => if k ∈ dkeys v then some 0 else none := by
  intro v
  induction v with
  | nil =>
      intro acc k
      cases hdg : dget acc k <;> simp [balMulLoop2, dkeys_nil, hdg]
  | cons e rest ih =>
      intro acc k
      obtain ⟨k0, c⟩ := e
      rw [dkeys_cons]
      simp only [balMulLoop2]
      rw [ih]
      by_cases hacc : hasKey acc k0 = true
      · rw [if_pos hacc]
        cases hdg : dget acc k with
        | some x => rfl
        | none =>
            have hkk0 : k ≠ k0 := by
              intro hh
              subst hh
              rw [hasKey, hdg] at hacc
              exact Bool.noConfusion hacc
            simp [hkk0]
      · rw [if_neg hacc]
        have hk0acc : k0 ∉ dkeys acc :=
          hasKey_false_iff.mp (Bool.not_eq_true _ |>.mp hacc)
        by_cases h : k = k0
        · subst h
          rw [dget_dset_self, dget_eq_none.mpr hk0acc]
          simp
        · rw [dget_dset_ne h]
          cases dget acc k with
          | some x => rfl
          | none => simp [h]

/-- C3: `Balance.__mul__` is the elementwise product over the union of the
two key sets, a key missing from either operand reading as zero on that side
(`dget` is `some` exactly on the union, and the value is always the product
of the two `Counter` reads); the operation is total, so a zero price or a
zero amount yields a zero entry rather than an error. -/
theorem C3_multiply_elementwise_union (u v : Dict ℚ) (hnd : (dkeys u).Nodup) (k : String) :
    dget (balMul u v) k =
      if k ∈ dkeys u ∨ k ∈ dkeys v then some (balGet u k * balGet v k) else none := by
  unfold balMul
  rw [balMulLoop2_dget, balMulLoop1_dget u [] k hnd]
  by_cases hu : k ∈ dkeys u
  · obtain ⟨a, ha⟩ := dget_isSome_of_mem hu
    rw [ha]
    simp [hu, balGet, ha]
  · rw [dget_eq_none.mpr hu]
    by_cases hv : k ∈ dkeys v
    · simp [dget, hu, hv, balGet, dget_eq_none.mpr hu]
    · simp [dget, hu, hv]

/-- Witness for C3 at `{"BTC": 2} * {"BTC": 1, "USDT": 9000}`, `k = "USDT"`. -/
theorem C3_multiply_elementwise_union_witness :
    dget (balMul [("BTC", (2 : ℚ))] [("BTC", 1), ("USDT", 9000)]) "USDT" =
      if "USDT" ∈ dkeys [("BTC", (2 : ℚ))] ∨ "USDT" ∈ dkeys [("BTC", (1 : ℚ)), ("USDT", 9000)]
      then some (balGet [("BTC", (2 : ℚ))] "USDT"
        * balGet [("BTC", (1 : ℚ)), ("USDT", 9000)] "USDT")
      else none :=
  C3_multiply_elementwise_union [("BTC", 2)] [("BTC", 1), ("USDT", 9000)] (by decide) "USDT"

/-- C4 counterexample: the claimed product `{"BTC": 2, "USDT": 18000}` is not
what `Balance.__mul__` returns for `{"BTC": 2} * {"BTC": 1.0, "USDT": 9000}`:
the `USDT` entry is `0` (the left operand has no `USDT` amount, and missing
entries read as zero), not `18000`. -/
theorem C4_counterexample :
    balMul [("BTC", (2 : ℚ))] [("BTC", 1), ("USDT", 9000)] ≠ [("BTC", 2), ("USDT", 18000)] := by
  intro h
  have h0 : dget (balMul [("BTC", (2 : ℚ))] [("BTC", 1), ("USDT", 9000)]) "USDT" = some 0 := by
    simp [balMul, balMulLoop1, balMulLoop2, dget, dset, hasKey, balGet]
  rw [h] at h0
  simp [dget] at h0

/-- C4 (amended): multiplying the Amount Vector `{"BTC": 2}` by the price row
`{"BTC": 1.0, "USDT": 9000}` yields exactly `{"BTC": 2, "USDT": 0}` — the
`BTC` entry is `2 * 1.0` and the `USDT` entry is the missing left amount `0`
(not `0 * 9000 = 18000` as the spec scenario claims). -/
theorem C4_multiply_concrete :
    balMul [("BTC", (2 : ℚ))] [("BTC", 1), ("USDT", 9000)] = [("BTC", 2), ("USDT", 0)] := by
  simp [balMul, balMulLoop1, balMulLoop2, dget, dset, hasKey, balGet]

theorem counterAddLoop1_dget {v : Dict ℚ} :
    ∀ (u acc : Dict ℚ) (k : String), (dkeys u).Nodup →
    dget (counterAddLoop1 v acc u) k =
      match dget u k with
      | some a => if 0 < a + balGet v k then some (a + balGet v k) else dget acc k
      | none => dget acc k := by
  intro u
  induction u with
  | nil =>
      intro acc k _
      simp [counterAddLoop1, dget]
  | cons e rest ih =>
      intro acc k hnd
      obtain ⟨k0, a⟩ := e
      rw [dkeys_cons] at hnd
      have hk0rest : k0 ∉ dkeys rest := (List.nodup_cons.mp hnd).1
      simp only [counterAddLoop1]
      rw [ih _ _ (List.nodup_cons.mp hnd).2]
      by_cases h : k0 = k
      · subst h
        rw [dget_eq_none.mpr hk0rest]
        by_cases hpos : 0 < a + balGet v k0
        · simp [dget, hpos, dget_dset_self]
        · simp [dget, hpos]
      · have hne : k ≠ k0 := fun hh => h (hh.symm)
        have hacc2 :
            dget (if 0 < a + balGet v k0 then dset acc k0 (a + balGet v k0) else acc) k
              = dget acc k := by
          by_cases hpos : 0 < a + balGet v k0
          · rw [if_pos hpos, dget_dset_ne hne]
          · rw [if_neg hpos]
        simp only [dget, h, if_false]
        cases dget rest k with
        | some a2 => simp [hacc2]
        | none => simp [hacc2]

theorem counterAddLoop2_dget {u : Dict ℚ} :
    ∀ (v acc : Dict ℚ) (k : String), (dkeys v).Nodup →
    (∀ k2 ∈ dkeys acc, k2 ∈ dkeys u ∨ k2 ∉ dkeys v) →
    dget (counterAddLoop2 u acc v) k =
      match dget acc k with
      | some x => some x
      | none =>
          if k ∈ dkeys v ∧ k ∉ dkeys u ∧ 0 < balGet v k
          then some (balGet v k) else none := by
  intro v
  induction v with
  | nil =>
      intro acc k _ _
      cases hdg : dget acc k <;> simp [counterAddLoop2, dkeys_nil, hdg]
  | cons e rest ih =>
      intro acc k hnd hsub
      obtain ⟨k0, c⟩ := e
      rw [dkeys_cons] at hnd hsub ⊢
      have hk0rest : k0 ∉ dkeys rest := (List.nodup_cons.mp hnd).1
      simp only [counterAddLoop2]
      by_cases hcond : ¬ hasKey u k0 = true ∧ 0 < c
      · rw [if_pos hcond]
        have hk0u : k0 ∉ dkeys u := fun hm => hcond.1 (hasKey_iff_mem.mpr hm)
        have hk0acc : k0 ∉ dkeys acc := by
          intro hm
          rcases hsub k0 hm with h1 | h1
          · exact hk0u h1
          · exact h1 (List.mem_cons_self _ _)
        rw [ih _ k (List.nodup_cons.mp hnd).2 ?side]
        case side =>
          intro k2 hm2
          rw [dset_eq_append hk0acc, dkeys_append] at hm2
          rcases List.mem_append.mp hm2 with h1 | h1
          · rcases hsub k2 h1 with h2 | h2
            · exact Or.inl h2
            · refine Or.inr (fun hm3 => h2 (List.mem_cons_of_mem _ hm3))
          · have hk2 : k2 = k0 := by
              simpa [dkeys] using h1
            subst hk2
            exact Or.inr hk0rest
        by_cases h : k = k0
        · subst h
          rw [dget_dset_self, dget_eq_none.mpr hk0acc]
          have hbal : balGet ((k, c) :: rest) k = c := by
            simp [balGet, dget]
          simp [hk0u, hcond.2, hbal]
        · rw [dget_dset_ne h]
          cases dget acc k with
          | some x => rfl
          | none =>
              have hne2 : ¬ (k0 = k) := fun hh => h (hh.symm)
              have hbal : balGet ((k0, c) :: rest) k = balGet rest k := by
                simp [balGet, dget, hne2]
              simp [h, hbal]
      · rw [if_neg hcond]
        rw [ih _ k (List.nodup_cons.mp hnd).2
          (fun k2 hm2 => (hsub k2 hm2).imp id (fun h1 hm3 => h1 (List.mem_cons_of_mem _ hm3)))]
        cases hdg : dget acc k with
        | some x => rfl
        | none =>
            by_cases h : k = k0
            · subst h
              have hbal : balGet ((k, c) :: rest) k = c := by
                simp [balGet, dget]
              have hfail : ¬ (k ∉ dkeys u ∧ 0 < balGet ((k, c) :: rest) k) := by
                rw [hbal]
                intro hand
                exact hcond ⟨fun hm => hand.1 (hasKey_iff_mem.mp hm), hand.2⟩
              simp [hk0rest]
              rw [if_neg hfail]
            · have hne2 : ¬ (k0 = k) := fun hh => h (hh.symm)
              have hbal : balGet ((k0, c) :: rest) k = balGet rest k := by
                simp [balGet, dget, hne2]
              simp [h, hbal]

/-- C9 counterexample: `Balance.__add__` goes through `Counter.__add__`, which
drops non-positive sums, so the result's key set is not the union of the
operands' key sets: `{"ETH": 0} + {}` is `{}`, losing the key `ETH`. -/
theorem C9_counterexample :
    balAdd [("ETH", (0 : ℚ))] [] = [] ∧ "ETH" ∈ dkeys [("ETH", (0 : ℚ))] := by
  constructor
  · simp [balAdd, counterAddLoop1, counterAddLoop2, balGet, dget]
  · simp [dkeys]

/-- C9 (amended): `Balance.__add__` is the elementwise sum restricted to the
keys whose sum is strictly positive (an entry whose sum with the other
operand is `≤ 0` is dropped, as is any key absent from both); on its key set
the value is always the sum of the two `Counter` reads. The operation builds
a fresh `Counter` and reads, but never writes, its operands. -/
theorem C9_add_positive_sums (u v : Dict ℚ) (hu : (dkeys u).Nodup)
    (hv : (dkeys v).Nodup) (k : String) :
    dget (balAdd u v) k =
      if 0 < balGet u k + balGet v k
      then some (balGet u k + balGet v k) else none := by
  unfold balAdd
  rw [counterAddLoop2_dget _ _ k hv ?hsub]
  case hsub =>
    intro k2 hm2
    left
    obtain ⟨x, hx⟩ := dget_isSome_of_mem hm2
    rw [counterAddLoop1_dget u [] k2 hu] at hx
    cases hdg : dget u k2 with
    | some a => exact mem_dkeys_of_dget hdg
    | none =>
        rw [hdg] at hx
        simp [dget] at hx
  rw [counterAddLoop1_dget u [] k hu]
  cases hdg : dget u k with
  | some a =>
      have hbal : balGet u k = a := by simp [balGet, hdg]
      have hmem : k ∈ dkeys u := mem_dkeys_of_dget hdg
      by_cases hpos : 0 < a + balGet v k
      · simp [hpos, hbal]
      · simp only [hpos, if_false, dget, Bool.false_eq_true]
        rw [hbal, if_neg hpos, if_neg (fun hand => hand.2.1 hmem)]
  | none =>
      have hbal : balGet u k = 0 := by simp [balGet, hdg]
      have hmem : k ∉ dkeys u := dget_eq_none.mp hdg
      simp only [dget]
      by_cases hv2 : k ∈ dkeys v
      · by_cases hpos : 0 < balGet v k
        · rw [if_pos ⟨hv2, hmem, hpos⟩, hbal]
          rw [if_pos (by simpa using hpos)]
          simp
        · rw [if_neg (fun hand => hpos hand.2.2), hbal]
          rw [if_neg (by simpa using hpos)]
      · have hbv : balGet v k = 0 := by
          simp [balGet, dget_eq_none.mpr hv2]
        rw [if_neg (fun hand => hv2 hand.1), hbal, hbv]
        norm_num

/-- Witness for C9 (amended) at `{"ETH": 0} + {}`, `k = "ETH"`. -/
theorem C9_add_positive_sums_witness :
    dget (balAdd [("ETH", (0 : ℚ))] []) "ETH" =
      if 0 < balGet [("ETH", (0 : ℚ))] "ETH" + balGet [] "ETH"
      then some (balGet [("ETH", (0 : ℚ))] "ETH" + balGet [] "ETH") else none :=
  C9_add_positive_sums [("ETH", 0)] [] (by decide) (by decide) "ETH"

theorem mkTicker_parts {raw t : Dict (Dict ℚ)} (h : mkTicker raw = .ok t) :
    ∃ n, normalizeNested raw = .ok n ∧ t = addSelfPrices n := by
  unfold mkTicker at h
  cases hnn : normalizeNested raw with
  | ok n =>
      rw [hnn] at h
      simp only [Bind.bind, Except.bind, Except.ok.injEq] at h
      exact ⟨n, rfl, h.symm⟩
  | error e =>
      rw [hnn] at h
      simp [Bind.bind, Except.bind] at h

theorem dget_addSelfPrices {t : Dict (Dict ℚ)} {c : String} :
    dget (addSelfPrices t) c = (dget t c).map (fun row => dset row c 1) := by
  induction t with
  | nil => simp [addSelfPrices, dget]
  | cons e rest ih =>
      obtain ⟨k0, row0⟩ := e
      by_cases h : k0 = c
      · subst h
        simp [addSelfPrices, dget]
      · simp only [addSelfPrices, List.map_cons, dget, h, if_false]
        exact ih

theorem dkeys_addSelfPrices {t : Dict (Dict ℚ)} : dkeys (addSelfPrices t) = dkeys t := by
  simp [addSelfPrices, dkeys, List.map_map, Function.comp]

/-- C2: every currency present as a source in a constructed Price Graph has
the reflexive self-edge: `prices(c)` succeeds and reads `1.0` at `c` (the
`Balance` read `prices(c)[c]`). -/
theorem C2_self_edge_identity {raw t : Dict (Dict ℚ)} (h : mkTicker raw = .ok t) :
    ∀ c ∈ dkeys t, ∃ row, prices t c = .ok row ∧ balGet row c = 1 := by
  intro c hc
  obtain ⟨n, _, hadd⟩ := mkTicker_parts h
  subst hadd
  rw [dkeys_addSelfPrices] at hc
  obtain ⟨row0, hrow0⟩ := dget_isSome_of_mem hc
  have hsome : dget (addSelfPrices n) c = some (dset row0 c 1) := by
    rw [dget_addSelfPrices, hrow0]
    rfl
  refine ⟨dset row0 c 1, ?_, ?_⟩
  · simp [prices, hsome]
  · simp [balGet, dget_dset_self]

/-- Evaluation of the `Ticker` constructor on the raw nested mapping
`{"btc": {"usdt": 9000}}`: keys normalize to `BTC`/`USDT` and the `BTC`
self-edge is added. -/
theorem mkTicker_concrete_eval : mkTicker [("btc", [("usdt", (9000 : ℚ))])] =
    .ok [("BTC", [("USDT", 9000), ("BTC", 1)])] := by
  have h1 : normalized_key "btc" = "BTC" := by decide
  have h2 : normalized_key "usdt" = "USDT" := by decide
  simp [mkTicker, normalizeNested, normalizeRows, normalizeNoAgg, normalizeNoAggAux,
    addSelfPrices, dset, dget, hasKey, h1, h2, Bind.bind, Except.bind]

/-- Witness for C2 on the ticker built from `{"btc": {"usdt": 9000}}`. -/
theorem C2_self_edge_identity_witness :
    ∃ row, prices [("BTC", [("USDT", (9000 : ℚ)), ("BTC", 1)])] "BTC" = .ok row ∧
      balGet row "BTC" = 1 :=
  C2_self_edge_identity mkTicker_concrete_eval "BTC" (by simp [dkeys])

/-- C7 counterexample: on the Price Graph constructed from the empty raw
mapping, `prices("BTC")` does not return an empty Amount Vector — the lookup
`self[target_currency]` raises `KeyError`. -/
theorem C7_counterexample :
    mkTicker ([] : Dict (Dict ℚ)) = .ok [] ∧
      prices ([] : Dict (Dict ℚ)) "BTC" = .error "KeyError" ∧
      prices ([] : Dict (Dict ℚ)) "BTC" ≠ .ok [] := by
  refine ⟨rfl, rfl, ?_⟩
  intro h
  exact Except.noConfusion h

/-- C7 (amended): for a constructed Price Graph, `prices` on a currency that
is not present as a source raises `KeyError` (the `dict` item access fails)
instead of returning an empty vector. -/
theorem C7_missing_currency_keyerror {raw t : Dict (Dict ℚ)} (_h : mkTicker raw = .ok t)
    {c : String} (hc : c ∉ dkeys t) : prices t c = .error "KeyError" := by
  unfold prices
  rw [dget_eq_none.mpr hc]

/-- Witness for C7 (amended) at the empty ticker and currency `"BTC"`. -/
theorem C7_missing_currency_keyerror_witness :
    prices ([] : Dict (Dict ℚ)) "BTC" = .error "KeyError" :=
  C7_missing_currency_keyerror (rfl : mkTicker ([] : Dict (Dict ℚ)) = .ok [])
    (by decide)

theorem normalizeEntries_ok_values {l r : Dict PyVal} (h : normalizeEntries l = .ok r) :
    ∀ e ∈ r, ∃ inner0 inner, e.2 = PyVal.dict inner ∧ normalizeNoAgg inner0 = .ok inner := by
  induction l generalizing r with
  | nil =>
      simp only [normalizeEntries, Except.ok.injEq] at h
      subst h
      intro e he
      simp at he
  | cons e0 rest ih =>
      obtain ⟨k, v⟩ := e0
      cases v with
      | num q => simp [normalizeEntries] at h
      | dict inner =>
          simp only [normalizeEntries, Bind.bind] at h
          cases hI : normalizeNoAgg inner with
          | error e2 =>
              rw [hI] at h
              simp [Except.bind] at h
          | ok innerN =>
              rw [hI] at h
              simp only [Except.bind] at h
              cases hR : normalizeEntries rest with
              | error e2 =>
                  rw [hR] at h
                  simp [Except.bind] at h
              | ok restN =>
                  rw [hR] at h
                  simp only [Except.bind, Except.ok.injEq] at h
                  subst h
                  intro e he
                  rcases List.mem_cons.mp he with h1 | h1
                  · exact ⟨inner, innerN, by rw [h1], hI⟩
                  · exact ih hR e h1

theorem normalizeEntries_id {l : Dict PyVal}
    (h : ∀ e ∈ l, ∃ inner, e.2 = PyVal.dict inner ∧ normalizeNoAgg inner = .ok inner) :
    normalizeEntries l = .ok l := by
  induction l with
  | nil => rfl
  | cons e0 rest ih =>
      obtain ⟨k, v⟩ := e0
      obtain ⟨inner, hv, hinner⟩ := h (k, v) (List.mem_cons_self _ _)
      simp only at hv
      subst hv
      simp only [normalizeEntries, Bind.bind, hinner, Except.bind]
      rw [ih (fun e he => h e (List.mem_cons_of_mem _ he))]

/-- C6: key normalization (`normalize_keys` with `recursive=True` and no
aggregator) is idempotent — whenever it succeeds on a nested mapping `x`
producing `y`, running it on `y` succeeds and returns `y` unchanged —
and the per-key canonicalization `normalized_key` is a fixed point on its
own outputs. -/
theorem C6_normalization_idempotent :
    (∀ x y : PyVal, normalize_keys_rec x = .ok y → normalize_keys_rec y = .ok y)
    ∧ ∀ k, normalized_key (normalized_key k) = normalized_key k := by
  constructor
  · intro x y hxy
    cases x with
    | num q =>
        simp only [normalize_keys_rec, Except.ok.injEq] at hxy
        subst hxy
        rfl
    | dict entries =>
        simp only [normalize_keys_rec, Bind.bind] at hxy
        cases hE : normalizeEntries entries with
        | error e =>
            rw [hE] at hxy
            simp [Except.bind] at hxy
        | ok entriesN =>
            rw [hE] at hxy
            simp only [Except.bind] at hxy
            cases hO : normalizeNoAgg entriesN with
            | error e =>
                rw [hO] at hxy
                simp [Except.bind] at hxy
            | ok outer =>
                rw [hO] at hxy
                simp only [Except.bind, Except.ok.injEq] at hxy
                subst hxy
                have hvals : ∀ e ∈ outer,
                    ∃ inner, e.2 = PyVal.dict inner ∧ normalizeNoAgg inner = .ok inner := by
                  intro e he
                  rw [normalizeNoAgg_ok_eq hO] at he
                  obtain ⟨e2, he2, heq⟩ := List.mem_map.mp he
                  obtain ⟨inner0, inner, hv, hinner⟩ := normalizeEntries_ok_values hE e2 he2
                  refine ⟨inner, ?_, ?_⟩
                  · rw [← heq]
                    exact hv
                  · exact normalizeNoAgg_id (normalizeNoAgg_ok_canon hinner)
                      (normalizeNoAgg_ok_nodup hinner)
                have hE2 : normalizeEntries outer = .ok outer := normalizeEntries_id hvals
                have hO2 : normalizeNoAgg outer = .ok outer :=
                  normalizeNoAgg_id (normalizeNoAgg_ok_canon hO) (normalizeNoAgg_ok_nodup hO)
                simp [normalize_keys_rec, hE2, hO2, Bind.bind, Except.bind]
  · exact normalized_key_idem

/-- Witness for C6: normalizing `{"btc": {"usdt": 9000}}` yields
`{"BTC": {"USDT": 9000}}`, on which normalization is the identity. -/
theorem C6_normalization_idempotent_witness :
    normalize_keys_rec (PyVal.dict [("BTC", PyVal.dict [("USDT", PyVal.num 9000)])]) =
      .ok (PyVal.dict [("BTC", PyVal.dict [("USDT", PyVal.num 9000)])]) :=
  C6_normalization_idempotent.1
    (PyVal.dict [("btc", PyVal.dict [("usdt", PyVal.num 9000)])])
    (PyVal.dict [("BTC", PyVal.dict [("USDT", PyVal.num 9000)])]) rfl

theorem mem_dset {α : Type} {d : Dict α} {k : String} {v : α} {e : String × α}
    (h : e ∈ dset d k v) : e ∈ d ∨ e = (k, v) := by
  induction d with
  | nil =>
      simp [dset] at h
      exact Or.inr h
  | cons e0 rest ih =>
      obtain ⟨k0, v0⟩ := e0
      by_cases h0 : k0 = k
      · subst h0
        simp only [dset, if_true] at h
        rcases List.mem_cons.mp h with h1 | h1
        · exact Or.inr h1
        · exact Or.inl (List.mem_cons_of_mem _ h1)
      · simp only [dset, h0, if_false] at h
        rcases List.mem_cons.mp h with h1 | h1
        · exact Or.inl (h1 ▸ List.mem_cons_self _ _)
        · rcases ih h1 with h2 | h2
          · exact Or.inl (List.mem_cons_of_mem _ h2)
          · exact Or.inr h2

theorem mem_dkeys_dset {α : Type} {d : Dict α} {k k2 : String} {v : α}
    (h : k2 ∈ dkeys (dset d k v)) : k2 ∈ dkeys d ∨ k2 = k := by
  obtain ⟨e, he, hfst⟩ := List.mem_map.mp h
  rcases mem_dset he with h1 | h1
  · exact Or.inl (hfst ▸ List.mem_map_of_mem Prod.fst h1)
  · subst h1
    exact Or.inr (hfst.symm)

theorem dkeys_dset_of_mem {α : Type} {d : Dict α} {k : String} {v : α}
    (h : k ∈ dkeys d) : dkeys (dset d k v) = dkeys d := by
  induction d with
  | nil => simp [dkeys_nil] at h
  | cons e0 rest ih =>
      obtain ⟨k0, v0⟩ := e0
      by_cases h0 : k0 = k
      · subst h0
        simp [dset, dkeys_cons]
      · rw [dkeys_cons] at h
        rcases List.mem_cons.mp h with h1 | h1
        · exact absurd h1.symm h0
        · simp only [dset, h0, if_false, dkeys_cons]
          rw [ih h1]

theorem nodup_dkeys_dset {α : Type} {d : Dict α} {k : String} {v : α}
    (h : (dkeys d).Nodup) : (dkeys (dset d k v)).Nodup := by
  by_cases hk : k ∈ dkeys d
  · rw [dkeys_dset_of_mem hk]
    exact h
  · rw [dset_eq_append hk, dkeys_append]
    have hsing : dkeys [(k, v)] = [k] := rfl
    rw [hsing, List.nodup_append]
    exact ⟨h, List.nodup_singleton _, fun a ha hb => hk ((List.mem_singleton.mp hb) ▸ ha)⟩

theorem dget2_dset2_self {α : Type} {acc : Dict (Dict α)} {t0 f0 : String} {v : α} :
    dget2 (dset2 acc t0 f0 v) t0 f0 = some v := by
  unfold dget2 dset2
  cases hdg : dget acc t0 with
  | some row => simp [dget_dset_self]
  | none =>
      rw [dget_append, hdg]
      simp [dget, Option.orElse]

theorem dget2_dset2_ne {α : Type} {acc : Dict (Dict α)} {t0 f0 b a : String} {v : α}
    (h : t0 ≠ b ∨ f0 ≠ a) : dget2 (dset2 acc t0 f0 v) b a = dget2 acc b a := by
  unfold dget2 dset2
  by_cases hb : t0 = b
  · subst hb
    have hfa : f0 ≠ a := h.resolve_left (fun h2 => h2 rfl)
    cases hdg : dget acc t0 with
    | some row =>
        rw [dget_dset_self]
        simp [dget_dset_ne (fun h2 : a = f0 => hfa h2.symm)]
    | none =>
        rw [dget_append, hdg]
        simp [dget, Option.orElse, dget_dset_ne, hfa, fun h2 : f0 = a => hfa h2]
  · have hbne : b ≠ t0 := fun h2 => hb h2.symm
    cases hdg : dget acc t0 with
    | some row => rw [dget_dset_ne hbne]
    | none =>
        rw [dget_append]
        cases hdb : dget acc b with
        | some row2 => simp [Option.orElse]
        | none => simp [Option.orElse, dget, hb]

theorem invertedRow_skip {α β : Type} {f : α → β} {a0 b a : String} :
    ∀ (entry : Dict α) (acc : Dict (Dict β)), (a0 ≠ a ∨ b ∉ dkeys entry) →
    dget2 (invertedRow f a0 acc entry) b a = dget2 acc b a := by
  intro entry
  induction entry with
  | nil =>
      intro acc _
      rfl
  | cons e0 rest ih =>
      intro acc hcond
      obtain ⟨t0, v⟩ := e0
      simp only [invertedRow]
      have hstep : dget2 (dset2 acc t0 a0 (f v)) b a = dget2 acc b a := by
        rcases hcond with h1 | h1
        · exact dget2_dset2_ne (Or.inr h1)
        · refine dget2_dset2_ne (Or.inl ?_)
          intro h2
          exact h1 (h2 ▸ List.mem_cons_self _ _)
      rw [ih _ ?_, hstep]
      rcases hcond with h1 | h1
      · exact Or.inl h1
      · exact Or.inr (fun h2 => h1 (List.mem_cons_of_mem _ h2))

theorem invertedRow_hit {α β : Type} {f : α → β} {a b : String} {v : α} :
    ∀ (entry : Dict α) (acc : Dict (Dict β)), (dkeys entry).Nodup →
    dget entry b = some v →
    dget2 (invertedRow f a acc entry) b a = some (f v) := by
  intro entry
  induction entry with
  | nil =>
      intro acc _ hdg
      simp [dget] at hdg
  | cons e0 rest ih =>
      intro acc hnd hdg
      obtain ⟨t0, w⟩ := e0
      rw [dkeys_cons] at hnd
      simp only [invertedRow]
      by_cases ht : t0 = b
      · subst ht
        simp only [dget, if_true] at hdg
        have hw : w = v := Option.some.injEq _ _ ▸ hdg
        subst hw
        rw [invertedRow_skip _ _ (Or.inr (List.nodup_cons.mp hnd).1)]
        exact dget2_dset2_self
      · simp only [dget, ht, if_false] at hdg
        rw [ih _ (List.nodup_cons.mp hnd).2 hdg]

theorem invertedAux_skip {α β : Type} {f : α → β} {b a : String} :
    ∀ (d : Dict (Dict α)) (acc : Dict (Dict β)),
    (∀ e ∈ d, e.1 ≠ a ∨ b ∉ dkeys e.2) →
    dget2 (invertedAux f acc d) b a = dget2 acc b a := by
  intro d
  induction d with
  | nil =>
      intro acc _
      rfl
  | cons e0 rest ih =>
      intro acc hcond
      obtain ⟨a0, row⟩ := e0
      simp only [invertedAux]
      rw [ih _ (fun e he => hcond e (List.mem_cons_of_mem _ he))]
      exact invertedRow_skip _ _ (hcond (a0, row) (List.mem_cons_self _ _))

theorem invertedAux_dget2 {α β : Type} {f : α → β} {a b : String} {v : α} :
    ∀ (d : Dict (Dict α)) (acc : Dict (Dict β)), (dkeys d).Nodup →
    (∀ e ∈ d, (dkeys e.2).Nodup) →
    dget2 d a b = some v →
    dget2 (invertedAux f acc d) b a = some (f v) := by
  intro d
  induction d with
  | nil =>
      intro acc _ _ hdg
      simp [dget2, dget] at hdg
  | cons e0 rest ih =>
      intro acc hnd hrows hdg
      obtain ⟨a0, row⟩ := e0
      rw [dkeys_cons] at hnd
      simp only [invertedAux]
      by_cases ha : a0 = a
      · subst ha
        have hrow : dget row b = some v := by
          unfold dget2 at hdg
          simp only [dget, if_true] at hdg
          exact hdg
        rw [invertedAux_skip _ _ ?rest]
        case rest =>
          intro e he
          exact Or.inl (fun h2 =>
            (List.nodup_cons.mp hnd).1 (h2 ▸ List.mem_map_of_mem Prod.fst he))
        exact invertedRow_hit _ _ (hrows (a0, row) (List.mem_cons_self _ _)) hrow
      · have hrest : dget2 rest a b = some v := by
          unfold dget2 at hdg ⊢
          simp only [dget, ha, if_false] at hdg
          exact hdg
        rw [ih _ (List.nodup_cons.mp hnd).2
          (fun e he => hrows e (List.mem_cons_of_mem _ he)) hrest]

/-- Transposition property of `inverted` (`src/utils.py`): on a two-level
dict with no duplicate keys at either level, edge `[a][b] = v` becomes
edge `[b][a] = inverter(v)`. -/
theorem inverted_dget2 {α β : Type} {f : α → β} {d : Dict (Dict α)} {a b : String} {v : α}
    (hnd : (dkeys d).Nodup) (hrows : ∀ e ∈ d, (dkeys e.2).Nodup)
    (hdg : dget2 d a b = some v) :
    dget2 (inverted d f) b a = some (f v) :=
  invertedAux_dget2 d [] hnd hrows hdg

theorem dset2_nodup {α : Type} {acc : Dict (Dict α)} {t0 f0 : String} {v : α}
    (h : DDNodup acc) : DDNodup (dset2 acc t0 f0 v) := by
  unfold dset2
  cases hdg : dget acc t0 with
  | some row =>
      constructor
      · rw [dkeys_dset_of_mem (mem_dkeys_of_dget hdg)]
        exact h.1
      · intro e he
        rcases mem_dset he with h1 | h1
        · exact h.2 e h1
        · rw [h1]
          exact nodup_dkeys_dset (h.2 (t0, row) (dget_mem hdg))
  | none =>
      constructor
      · rw [dkeys_append]
        have hsing : dkeys [(t0, [(f0, v)])] = [t0] := rfl
        rw [hsing, List.nodup_append]
        exact ⟨h.1, List.nodup_singleton _,
          fun x hx hb => (dget_eq_none.mp hdg) ((List.mem_singleton.mp hb) ▸ hx)⟩
      · intro e he
        rcases List.mem_append.mp he with h1 | h1
        · exact h.2 e h1
        · rw [List.mem_singleton.mp h1]
          exact List.nodup_singleton _

theorem invertedRow_nodup {α β : Type} {f : α → β} {a0 : String} :
    ∀ (entry : Dict α) (acc : Dict (Dict β)), DDNodup acc →
    DDNodup (invertedRow f a0 acc entry) := by
  intro entry
  induction entry with
  | nil =>
      intro acc h
      exact h
  | cons e0 rest ih =>
      intro acc h
      obtain ⟨t0, v⟩ := e0
      exact ih _ (dset2_nodup h)

theorem inverted_nodup {α β : Type} {f : α → β} {d : Dict (Dict α)} :
    DDNodup (inverted d f) := by
  unfold inverted
  suffices hgen : ∀ (l : Dict (Dict α)) (acc : Dict (Dict β)), DDNodup acc →
      DDNodup (invertedAux f acc l) by
    refine hgen d [] ⟨List.nodup_nil, ?_⟩
    intro e he
    simp at he
  intro l
  induction l with
  | nil =>
      intro acc h
      exact h
  | cons e0 rest ih =>
      intro acc h
      obtain ⟨a0, row⟩ := e0
      exact ih _ (invertedRow_nodup _ _ h)

theorem dset2_canon {α : Type} {acc : Dict (Dict α)} {t0 f0 : String} {v : α}
    (h : DDCanon acc) (ht : normalized_key t0 = t0) (hf : normalized_key f0 = f0) :
    DDCanon (dset2 acc t0 f0 v) := by
  unfold dset2
  cases hdg : dget acc t0 with
  | some row =>
      constructor
      · intro k hk
        rcases mem_dkeys_dset hk with h1 | h1
        · exact h.1 k h1
        · exact h1 ▸ ht
      · intro e he k hk
        rcases mem_dset he with h1 | h1
        · exact h.2 e h1 k hk
        · rw [h1] at hk
          rcases mem_dkeys_dset hk with h2 | h2
          · exact h.2 (t0, row) (dget_mem hdg) k h2
          · exact h2 ▸ hf
  | none =>
      constructor
      · intro k hk
        rw [dkeys_append] at hk
        rcases List.mem_append.mp hk with h1 | h1
        · exact h.1 k h1
        · have hsing : dkeys [(t0, [(f0, v)])] = [t0] := rfl
          rw [hsing, List.mem_singleton] at h1
          exact h1 ▸ ht
      · intro e he k hk
        rcases List.mem_append.mp he with h1 | h1
        · exact h.2 e h1 k hk
        · rw [List.mem_singleton.mp h1] at hk
          have hsing : dkeys [(f0, v)] = [f0] := rfl
          rw [hsing, List.mem_singleton] at hk
          exact hk ▸ hf

theorem invertedRow_canon {α β : Type} {f : α → β} {a0 : String} :
    ∀ (entry : Dict α) (acc : Dict (Dict β)), DDCanon acc →
    normalized_key a0 = a0 → (∀ k ∈ dkeys entry, normalized_key k = k) →
    DDCanon (invertedRow f a0 acc entry) := by
  intro entry
  induction entry with
  | nil =>
      intro acc h _ _
      exact h
  | cons e0 rest ih =>
      intro acc h ha hkeys
      obtain ⟨t0, v⟩ := e0
      rw [dkeys_cons] at hkeys
      exact ih _ (dset2_canon h (hkeys t0 (List.mem_cons_self _ _)) ha) ha
        (fun k hk => hkeys k (List.mem_cons_of_mem _ hk))

theorem inverted_canon {α β : Type} {f : α → β} {d : Dict (Dict α)}
    (h : DDCanon d) : DDCanon (inverted d f) := by
  unfold inverted
  suffices hgen : ∀ (l : Dict (Dict α)) (acc : Dict (Dict β)), DDCanon acc →
      (∀ e ∈ l, normalized_key e.1 = e.1) →
      (∀ e ∈ l, ∀ k ∈ dkeys e.2, normalized_key k = k) →
      DDCanon (invertedAux f acc l) by
    refine hgen d [] ⟨by simp [dkeys_nil], by simp⟩ ?_ h.2
    intro e he
    exact h.1 e.1 (List.mem_map_of_mem Prod.fst he)
  intro l
  induction l with
  | nil =>
      intro acc hacc _ _
      exact hacc
  | cons e0 rest ih =>
      intro acc hacc houter hinner
      obtain ⟨a0, row⟩ := e0
      refine ih _ ?_ (fun e he => houter e (List.mem_cons_of_mem _ he))
        (fun e he => hinner e (List.mem_cons_of_mem _ he))
      exact invertedRow_canon _ _ hacc (houter (a0, row) (List.mem_cons_self _ _))
        (hinner (a0, row) (List.mem_cons_self _ _))

theorem addSelf_nodup {t : Dict (Dict ℚ)} (h : DDNodup t) :
    DDNodup (addSelfPrices t) := by
  constructor
  · rw [dkeys_addSelfPrices]
    exact h.1
  · intro e he
    obtain ⟨e0, he0, heq⟩ := List.mem_map.mp he
    rw [← heq]
    exact nodup_dkeys_dset (h.2 e0 he0)

theorem addSelf_canon {t : Dict (Dict ℚ)} (h : DDCanon t) :
    DDCanon (addSelfPrices t) := by
  constructor
  · rw [dkeys_addSelfPrices]
    exact h.1
  · intro e he k hk
    obtain ⟨e0, he0, heq⟩ := List.mem_map.mp he
    rw [← heq] at hk
    rcases mem_dkeys_dset hk with h1 | h1
    · exact h.2 e0 he0 k h1
    · rw [h1]
      exact h.1 e0.1 (List.mem_map_of_mem Prod.fst he0)

theorem normalizeRows_ok_values {d r : Dict (Dict ℚ)} (h : normalizeRows d = .ok r) :
    ∀ e ∈ r, ∃ row0, normalizeNoAgg row0 = .ok e.2 := by
  induction d generalizing r with
  | nil =>
      simp only [normalizeRows, Except.ok.injEq] at h
      subst h
      intro e he
      simp at he
  | cons e0 rest ih =>
      obtain ⟨k, row⟩ := e0
      simp only [normalizeRows, Bind.bind] at h
      cases hI : normalizeNoAgg row with
      | error e2 =>
          rw [hI] at h
          simp [Except.bind] at h
      | ok rowN =>
          rw [hI] at h
          simp only [Except.bind] at h
          cases hR : normalizeRows rest with
          | error e2 =>
              rw [hR] at h
              simp [Except.bind] at h
          | ok restN =>
              rw [hR] at h
              simp only [Except.bind, Except.ok.injEq] at h
              subst h
              intro e he
              rcases List.mem_cons.mp he with h1 | h1
              · refine ⟨row, ?_⟩
                rw [h1]
                exact hI
              · exact ih hR e h1

theorem normalizeRows_id {d : Dict (Dict ℚ)}
    (h : ∀ e ∈ d, normalizeNoAgg e.2 = .ok e.2) : normalizeRows d = .ok d := by
  induction d with
  | nil => rfl
  | cons e0 rest ih =>
      obtain ⟨k, row⟩ := e0
      have hrow : normalizeNoAgg row = .ok row := h (k, row) (List.mem_cons_self _ _)
      simp only [normalizeRows, Bind.bind, hrow, Except.bind]
      rw [ih (fun e he => h e (List.mem_cons_of_mem _ he))]

theorem normalizeNested_ok_wf {raw n : Dict (Dict ℚ)}
    (h : normalizeNested raw = .ok n) : DDNodup n ∧ DDCanon n := by
  unfold normalizeNested at h
  simp only [Bind.bind] at h
  cases hR : normalizeRows raw with
  | error e2 =>
      rw [hR] at h
      simp [Except.bind] at h
  | ok rows =>
      rw [hR] at h
      simp only [Except.bind] at h
      have hvals : ∀ e ∈ n, ∃ row0, normalizeNoAgg row0 = .ok e.2 := by
        intro e he
        rw [normalizeNoAgg_ok_eq h] at he
        obtain ⟨e2, he2, heq⟩ := List.mem_map.mp he
        obtain ⟨row0, hrow0⟩ := normalizeRows_ok_values hR e2 he2
        exact ⟨row0, by rw [← heq]; exact hrow0⟩
      refine ⟨⟨normalizeNoAgg_ok_nodup h, ?_⟩, ⟨normalizeNoAgg_ok_canon h, ?_⟩⟩
      · intro e he
        obtain ⟨row0, hrow0⟩ := hvals e he
        exact normalizeNoAgg_ok_nodup hrow0
      · intro e he
        obtain ⟨row0, hrow0⟩ := hvals e he
        exact normalizeNoAgg_ok_canon hrow0

theorem mkTicker_wf {raw t : Dict (Dict ℚ)} (h : mkTicker raw = .ok t) :
    DDNodup t ∧ DDCanon t := by
  obtain ⟨n, hn, hadd⟩ := mkTicker_parts h
  obtain ⟨hnd, hcanon⟩ := normalizeNested_ok_wf hn
  subst hadd
  exact ⟨addSelf_nodup hnd, addSelf_canon hcanon⟩

theorem normalizeNested_id {t : Dict (Dict ℚ)} (hnd : DDNodup t) (hcanon : DDCanon t) :
    normalizeNested t = .ok t := by
  unfold normalizeNested
  rw [normalizeRows_id (fun e he =>
    normalizeNoAgg_id (hcanon.2 e he) (hnd.2 e he))]
  simp only [Bind.bind, Except.bind]
  exact normalizeNoAgg_id hcanon.1 hnd.1

theorem mkTicker_of_wf {t : Dict (Dict ℚ)} (hnd : DDNodup t) (hcanon : DDCanon t) :
    mkTicker t = .ok (addSelfPrices t) := by
  unfold mkTicker
  rw [normalizeNested_id hnd hcanon]
  rfl

theorem dget2_isSome_outer {α : Type} {d : Dict (Dict α)} {x y : String} {v : α}
    (h : dget2 d x y = some v) : x ∈ dkeys d := by
  unfold dget2 at h
  cases hdg : dget d x with
  | some row => exact mem_dkeys_of_dget hdg
  | none =>
      rw [hdg] at h
      simp at h

theorem dget2_addSelf_self {t : Dict (Dict ℚ)} {c : String} (h : c ∈ dkeys t) :
    dget2 (addSelfPrices t) c c = some 1 := by
  obtain ⟨row, hrow⟩ := dget_isSome_of_mem h
  unfold dget2
  rw [dget_addSelfPrices, hrow]
  simp [dget_dset_self]

theorem dget2_addSelf_ne {t : Dict (Dict ℚ)} {x y : String} (h : y ≠ x) :
    dget2 (addSelfPrices t) x y = dget2 t x y := by
  unfold dget2
  rw [dget_addSelfPrices]
  cases dget t x with
  | some row => simp [dget_dset_ne h]
  | none => rfl

theorem pinv_zero : pinv 0 = 0 := rfl

theorem pinv_one : pinv 1 = 1 := by norm_num [pinv]

theorem pinv_pinv {p : ℚ} : pinv (pinv p) = p := by
  by_cases h : p = 0
  · simp [pinv, h]
  · have h1 : (1 : ℚ) / p ≠ 0 := one_div_ne_zero h
    simp [pinv, h, h1, one_div_one_div]

theorem mkTicker_self_one {raw g : Dict (Dict ℚ)} (h : mkTicker raw = .ok g)
    {a : String} {p : ℚ} (he : dget2 g a a = some p) : p = 1 := by
  obtain ⟨n, _, hadd⟩ := mkTicker_parts h
  subst hadd
  by_cases hmem : a ∈ dkeys n
  · rw [dget2_addSelf_self hmem] at he
    exact (Option.some.injEq _ _ ▸ he).symm
  · exfalso
    have hnone : dget n a = none := dget_eq_none.mpr hmem
    unfold dget2 at he
    rw [dget_addSelfPrices, hnone] at he
    simp at he

/-- One inversion step on a constructed ticker: `Ticker.inverted` succeeds
(the keys are already canonical, so re-normalization in the constructor is
the identity), and edge `[a][b] = p` of the input appears as
`[b][a] = (p and 1/p)` in the result. -/
theorem tickerInverted_edge {raw g g1 : Dict (Dict ℚ)} (hg : mkTicker raw = .ok g)
    (hg1 : tickerInverted g = .ok g1) {a b : String} {p : ℚ}
    (he : dget2 g a b = some p) : dget2 g1 b a = some (pinv p) := by
  obtain ⟨hnd, hcanon⟩ := mkTicker_wf hg
  have hstep : tickerInverted g = .ok (addSelfPrices (inverted g pinv)) := by
    unfold tickerInverted
    exact mkTicker_of_wf inverted_nodup (inverted_canon hcanon)
  rw [hstep] at hg1
  have hg1eq : g1 = addSelfPrices (inverted g pinv) :=
    (Except.ok.injEq _ _ ▸ hg1).symm
  subst hg1eq
  have hIedge : dget2 (inverted g pinv) b a = some (pinv p) :=
    inverted_dget2 hnd.1 hnd.2 he
  by_cases hab : b = a
  · subst hab
    have hp1 : p = 1 := mkTicker_self_one hg he
    have hmem : b ∈ dkeys (inverted g pinv) := dget2_isSome_outer hIedge
    rw [dget2_addSelf_self hmem, hp1, pinv_one]
  · rw [dget2_addSelf_ne (fun h2 : a = b => hab h2.symm)]
    exact hIedge

/-- C5: on a constructed Price Graph, inversion is its own inverse up to
zero-price edges: both inversions succeed (no exception), every edge
`price[a][b] = p` with `p ≠ 0` becomes `price[b][a] = 1/p` and returns to
`price[a][b] = p` after the second inversion, and every zero-price edge maps
to zero and stays zero. -/
theorem C5_double_inversion {raw g : Dict (Dict ℚ)} (h : mkTicker raw = .ok g) :
    ∃ g1 g2, tickerInverted g = .ok g1 ∧ tickerInverted g1 = .ok g2 ∧
      (∀ a b p, dget2 g a b = some p → p ≠ 0 →
        dget2 g1 b a = some (1 / p) ∧ dget2 g2 a b = some p) ∧
      (∀ a b, dget2 g a b = some 0 →
        dget2 g1 b a = some 0 ∧ dget2 g2 a b = some 0) := by
  obtain ⟨hnd, hcanon⟩ := mkTicker_wf h
  have hg1 : tickerInverted g = .ok (addSelfPrices (inverted g pinv)) := by
    unfold tickerInverted
    exact mkTicker_of_wf inverted_nodup (inverted_canon hcanon)
  have hg1m : mkTicker (inverted g pinv) = .ok (addSelfPrices (inverted g pinv)) := hg1
  obtain ⟨hnd1, hcanon1⟩ := mkTicker_wf hg1m
  have hg2 : tickerInverted (addSelfPrices (inverted g pinv)) =
      .ok (addSelfPrices (inverted (addSelfPrices (inverted g pinv)) pinv)) := by
    unfold tickerInverted
    exact mkTicker_of_wf inverted_nodup (inverted_canon hcanon1)
  refine ⟨_, _, hg1, hg2, ?_, ?_⟩
  · intro a b p he hp
    have e1 : dget2 (addSelfPrices (inverted g pinv)) b a = some (pinv p) :=
      tickerInverted_edge h hg1 he
    have e2 := tickerInverted_edge hg1m hg2 e1
    rw [pinv_pinv] at e2
    refine ⟨?_, e2⟩
    rw [e1]
    simp [pinv, hp]
  · intro a b he
    have e1 := tickerInverted_edge h hg1 he
    rw [pinv_zero] at e1
    have e2 := tickerInverted_edge hg1m hg2 e1
    rw [pinv_zero] at e2
    exact ⟨e1, e2⟩

/-- Witness for C5 on the ticker built from `{"btc": {"usdt": 9000}}`. -/
theorem C5_double_inversion_witness :
    ∃ g1 g2,
      tickerInverted [("BTC", [("USDT", (9000 : ℚ)), ("BTC", 1)])] = .ok g1 ∧
      tickerInverted g1 = .ok g2 ∧
      (∀ a b p, dget2 [("BTC", [("USDT", (9000 : ℚ)), ("BTC", 1)])] a b = some p → p ≠ 0 →
        dget2 g1 b a = some (1 / p) ∧ dget2 g2 a b = some p) ∧
      (∀ a b, dget2 [("BTC", [("USDT", (9000 : ℚ)), ("BTC", 1)])] a b = some 0 →
        dget2 g1 b a = some 0 ∧ dget2 g2 a b = some 0) :=
  C5_double_inversion mkTicker_concrete_eval

/-- C8: `open_buy_orders` transposes the order structure — the order list
under `source -> destination` appears under `destination -> source` with
every order `{amount: a, price: p, order_id: id}` rewritten to
`{amount: a * p, price: (p == 0 ? 0 : 1/p), order_id: id}` — and for any
order with `p ≠ 0` applying the per-order inversion twice restores the
original order. -/
theorem C8_order_inversion (oo : Dict (Dict (List Order)))
    (h1 : (dkeys oo).Nodup) (h2 : ∀ e ∈ oo, (dkeys e.2).Nodup) :
    (∀ src dst orders, dget2 oo src dst = some orders →
      dget2 (invertOrders oo) dst src = some (orders.map invOrder)) ∧
    (∀ o : Order, o.price ≠ 0 → invOrder (invOrder o) = o) := by
  constructor
  · intro src dst orders he
    exact inverted_dget2 h1 h2 he
  · intro o hp
    obtain ⟨a, p, oid⟩ := o
    have hp2 : p ≠ 0 := hp
    have h1p : (1 : ℚ) / p ≠ 0 := one_div_ne_zero hp2
    simp only [invOrder, hp2, if_false, h1p]
    simp only [Order.mk.injEq, one_div_one_div]
    refine ⟨?_, trivial, trivial⟩
    field_simp

/-- Witness for C8 at the single order `{amount: 2, price: 9000,
order_id: "id1"}` under `BTC -> USDT`. -/
theorem C8_order_inversion_witness :
    (dget2 (invertOrders [("BTC", [("USDT", [(⟨2, 9000, "id1"⟩ : Order)])])])
        "USDT" "BTC" = some ([(⟨2, 9000, "id1"⟩ : Order)].map invOrder))
    ∧ invOrder (invOrder (⟨2, 9000, "id1"⟩ : Order)) = ⟨2, 9000, "id1"⟩ := by
  have hmain := C8_order_inversion [("BTC", [("USDT", [⟨2, 9000, "id1"⟩])])]
    (by decide) (by decide)
  exact ⟨hmain.1 "BTC" "USDT" _ rfl, hmain.2 ⟨2, 9000, "id1"⟩ (by norm_num)⟩

end CryptoApis
